import Mathlib

/-!
Shallow embedding of the autonomi client data layer (binding layer
`src/autonomi/src/client/wasm.rs` together with the data-encoding engine it
exposes, the latter modelled from the specification where its source is not
part of this repository snapshot).  Bytes are modelled as natural numbers,
payloads as lists of bytes; fallible operations return `Except`.
-/

namespace Autonomi

/-- A byte of payload data.  Machine bytes are 0..255; the model uses `Nat`
and no operation here depends on an upper bound. -/
abbrev Byte := Nat

/-- A byte string (payload, chunk, digest, ciphertext ...). -/
abbrev Bytes := List Byte

/-- Error taxonomy of the spec (§7). -/
inductive Err where
  | notFound
  | corruption
  | payment
  | network
  | decryption
  | invalidInput
  deriving DecidableEq, Repr

/-- Modelled from the spec: a `ContentAddress` is a fixed-width,
collision-resistant digest of a byte string.  The spec assumes
`address(x) = address(y) → x = y` (collision resistance), so the digest is
modelled as an injective function of the content: the digest carries the
content itself. -/
structure Addr where
  digest : Bytes
  deriving DecidableEq, Repr

/-- Modelled from the spec (§4.1): `address(bytes) -> ContentAddress`, pure and
deterministic. -/
def address (b : Bytes) : Addr := ⟨b⟩

theorem address_inj {x y : Bytes} (h : address x = address y) : x = y := by
  simpa [address, Addr.mk.injEq] using h

/-! ### Self-keyed symmetric encryption (ChunkCodec, spec §4.2)

Modelled from the spec: each piece is encrypted with key material derived from
the content hashes of its sibling pieces.  The cipher is modelled as a
byte-wise xor with a keystream expanded cyclically from the key, which is
exactly invertible — all the claims need is that decryption with the same key
inverts encryption. -/

/-- Keystream of length `n` expanded cyclically from key `k` (zeroes for an
empty key). -/
def keystream (k : Bytes) (n : Nat) : Bytes :=
  (List.range n).map (fun i => k.getD (i % max k.length 1) 0)

theorem length_keystream (k : Bytes) (n : Nat) : (keystream k n).length = n := by
  simp [keystream]

/-- Modelled from the spec: symmetric encryption of a piece under a key. -/
def encryptBytes (k p : Bytes) : Bytes :=
  List.zipWith (fun a b => a ^^^ b) p (keystream k p.length)

/-- Modelled from the spec: symmetric decryption, the inverse of
`encryptBytes` under the same key. -/
def decryptBytes (k c : Bytes) : Bytes :=
  List.zipWith (fun a b => a ^^^ b) c (keystream k c.length)

theorem length_encryptBytes (k p : Bytes) : (encryptBytes k p).length = p.length := by
  simp [encryptBytes, length_keystream]

theorem zipWith_xor_xor (l ks : List Nat) (h : l.length = ks.length) :
    List.zipWith (fun a b => a ^^^ b) (List.zipWith (fun a b => a ^^^ b) l ks) ks = l := by
  induction l generalizing ks with
  | nil => simp
  | cons a as ih =>
    cases ks with
    | nil => simp at h
    | cons b bs =>
      simp only [List.zipWith_cons_cons, List.cons.injEq]
      refine ⟨?_, ih bs (by simpa using h)⟩
      rw [Nat.xor_assoc, Nat.xor_self, Nat.xor_zero]

theorem decrypt_encrypt (k p : Bytes) : decryptBytes k (encryptBytes k p) = p := by
  unfold decryptBytes
  rw [length_encryptBytes]
  exact zipWith_xor_xor p (keystream k p.length) (length_keystream k p.length).symm

/-! ### Chunk splitting (ChunkCodec, spec §4.2) -/

/-- Slice a byte string into consecutive pieces of at most `max n 1` bytes. -/
def chunksOf (n : Nat) (l : Bytes) : List Bytes :=
  if h : l = [] then []
  else l.take (max n 1) :: chunksOf n (l.drop (max n 1))
termination_by l.length
decreasing_by
  have hl : 0 < l.length := List.length_pos.mpr h
  have hn : 1 ≤ max n 1 := le_max_right _ _
  simpa [List.length_drop] using Nat.sub_lt hl hn

theorem chunksOf_flatten_aux (n : Nat) :
    ∀ (k : Nat) (l : Bytes), l.length ≤ k → (chunksOf n l).flatten = l := by
  intro k
  induction k with
  | zero =>
    intro l h
    have hl : l = [] := List.eq_nil_of_length_eq_zero (Nat.le_zero.mp h)
    subst hl; rw [chunksOf]; simp
  | succ k ih =>
    intro l h
    by_cases hl : l = []
    · subst hl; rw [chunksOf]; simp
    · rw [chunksOf]; simp only [hl, dite_false, List.flatten_cons]
      have hlp : 0 < l.length := List.length_pos.mpr hl
      have hn : 1 ≤ max n 1 := le_max_right _ _
      rw [ih (l.drop (max n 1)) (by simp only [List.length_drop]; omega)]
      exact List.take_append_drop _ _

theorem chunksOf_flatten (n : Nat) (l : Bytes) : (chunksOf n l).flatten = l :=
  chunksOf_flatten_aux n l.length l (Nat.le_refl _)

/-- Split a payload into pieces (spec §4.2): a payload no longer than the
chunk-size bound is itself a single piece (the degenerate case, covering the
empty payload); a longer payload is sliced into bounded consecutive pieces. -/
def splitPieces (maxSize : Nat) (p : Bytes) : List Bytes :=
  if p.length ≤ maxSize then [p] else chunksOf maxSize p

theorem splitPieces_flatten (maxSize : Nat) (p : Bytes) :
    (splitPieces maxSize p).flatten = p := by
  unfold splitPieces
  by_cases h : p.length ≤ maxSize
  · simp [h]
  · simp [h, chunksOf_flatten]

/-! ### DataMap (spec §3, §4.2) -/

/-- One DataMap entry: the content address of an encrypted piece together with
the key-derivation input recorded for it (the content hash of the plaintext
piece, from which sibling keys are re-derived on decode). -/
structure DMEntry where
  ctAddr : Addr
  srcHash : Bytes
  deriving DecidableEq, Repr

instance : Inhabited DMEntry := ⟨⟨⟨[]⟩, []⟩⟩

/-- Modelled from the spec: a DataMap is the ordered sequence of per-piece
entries describing how to decrypt and concatenate chunks. -/
structure DataMap where
  entries : List DMEntry
  deriving DecidableEq, Repr

/-- Key material for piece `i`: derived from the content hashes of its sibling
pieces (all hashes except its own), spec §4.2. -/
def siblingKey (hashes : List Bytes) (i : Nat) : Bytes :=
  (hashes.eraseIdx i).flatten

/-- The plaintext pieces of a payload (spec §4.2). -/
def encPieces (maxSize : Nat) (p : Bytes) : List Bytes := splitPieces maxSize p

/-- The content hashes of the plaintext pieces, the key-derivation inputs. -/
def encHashes (maxSize : Nat) (p : Bytes) : List Bytes :=
  (encPieces maxSize p).map (fun q => (address q).digest)

/-- The ciphertext chunks: piece `i` encrypted under its sibling-derived key. -/
def encCts (maxSize : Nat) (p : Bytes) : List Bytes :=
  (List.range (encPieces maxSize p).length).map
    (fun i => encryptBytes (siblingKey (encHashes maxSize p) i) ((encPieces maxSize p).getD i []))

/-- The DataMap entries, one per piece in original order. -/
def encEntries (maxSize : Nat) (p : Bytes) : List DMEntry :=
  (List.range (encPieces maxSize p).length).map
    (fun i => DMEntry.mk (address ((encCts maxSize p).getD i []))
      ((encHashes maxSize p).getD i []))

/-- Modelled from the spec (§4.2): `encode(payload, max_chunk_size)` splits the
payload into pieces, encrypts each piece under key material derived from its
sibling pieces' content hashes, and returns the DataMap (one entry per piece,
in order) together with the ciphertext chunks. -/
def encode (maxSize : Nat) (p : Bytes) : DataMap × List Bytes :=
  (⟨encEntries maxSize p⟩, encCts maxSize p)

/-- Fetch bytes at an address and verify integrity (spec §4.1): after any
fetch the address of the fetched bytes is recomputed and compared to the
requested address; a mismatch is a `CorruptionError`, a missing blob a
`NotFoundError`. -/
def fetchVerified (fetch : Addr → Option Bytes) (a : Addr) : Except Err Bytes :=
  match fetch a with
  | none => .error .notFound
  | some b => if address b = a then .ok b else .error .corruption

/-- Collect a list of fallible results, failing on the first error. -/
def collectE : List (Except Err Bytes) → Except Err (List Bytes)
  | [] => .ok []
  | .error e :: _ => .error e
  | .ok b :: xs =>
    match collectE xs with
    | .ok bs => .ok (b :: bs)
    | .error e => .error e

/-- Decode one DataMap entry (spec §4.2): fetch the ciphertext chunk at the
entry's address with integrity verification, re-derive its key from the
sibling hashes present in the DataMap, and decrypt. -/
def decodeEntry (entries : List DMEntry) (fetch : Addr → Option Bytes) (i : Nat) :
    Except Err Bytes :=
  match fetchVerified fetch (entries.getD i default).ctAddr with
  | .error e => .error e
  | .ok ct => .ok (decryptBytes (siblingKey (entries.map DMEntry.srcHash) i) ct)

/-- Modelled from the spec (§4.2): `decode` fetches every ciphertext chunk,
decrypts each with its re-derived sibling key, and concatenates the pieces in
original order; any missing or corrupt chunk fails the whole reconstruction. -/
def decode (dm : DataMap) (fetch : Addr → Option Bytes) : Except Err Bytes :=
  match collectE ((List.range dm.entries.length).map (decodeEntry dm.entries fetch)) with
  | .error e => .error e
  | .ok pieces => .ok pieces.flatten

theorem collectE_map_ok {α : Type} (l : List α) (f : α → Except Err Bytes)
    (g : α → Bytes) (h : ∀ a ∈ l, f a = .ok (g a)) :
    collectE (l.map f) = .ok (l.map g) := by
  induction l with
  | nil => simp [collectE]
  | cons a as ih =>
    rw [List.map_cons, h a (List.mem_cons_self a as), List.map_cons]
    simp only [collectE]
    rw [ih (fun x hx => h x (List.mem_cons_of_mem a hx))]

theorem getD_map_range {α : Type} (f : Nat → α) (n i : Nat) (d : α) (h : i < n) :
    (((List.range n).map f).getD i d) = f i := by
  rw [List.getD_eq_getElem?_getD, List.getElem?_map, List.getElem?_range h]
  rfl

theorem map_getD_self {α : Type} (l : List α) (d : α) :
    (List.range l.length).map (fun i => l.getD i d) = l := by
  induction l with
  | nil => simp
  | cons a as ih =>
    rw [List.length_cons, List.range_succ_eq_map, List.map_cons, List.map_map]
    simp only [List.getD_cons_zero, Function.comp_def, List.getD_cons_succ]
    rw [ih]

/-! ### Textual address encoding (`addr_to_str` / `str_to_addr`, spec §6)

Modelled from the spec: address strings use a stable, documented textual
encoding of the digest, round-trippable losslessly.  Each digest byte is
written as `-` followed by that many `x` characters; any string not of this
shape is malformed and rejected. -/

/-- Modelled from the spec: render a content address as its textual form. -/
def addr_to_str (a : Addr) : String :=
  ⟨a.digest.flatMap (fun n => '-' :: List.replicate n 'x')⟩

/-- Parse the remainder of the text while inside a digit group whose count so
far is `k`; a character other than `x` (continuing the group) or `-` (starting
the next group) makes the string malformed. -/
def parseRest : List Char → Nat → Option Bytes
  | [], k => some [k]
  | c :: cs, k =>
    if c = 'x' then parseRest cs (k + 1)
    else if c = '-' then (parseRest cs 0).map (fun bs => k :: bs)
    else none

/-- Modelled from the spec: parse the textual encoding of a content address,
rejecting every malformed string. -/
def str_to_addr (s : String) : Option Addr :=
  match s.data with
  | [] => some ⟨[]⟩
  | c :: cs => if c = '-' then (parseRest cs 0).map Addr.mk else none

theorem parseRest_replicate (n : Nat) :
    ∀ (cs : List Char) (k : Nat), parseRest (List.replicate n 'x' ++ cs) k = parseRest cs (k + n) := by
  induction n with
  | zero => intro cs k; simp
  | succ n ih =>
    intro cs k
    rw [List.replicate_succ, List.cons_append]
    show parseRest (List.replicate n 'x' ++ cs) (k + 1) = parseRest cs (k + (n + 1))
    rw [ih cs (k + 1)]
    congr 1
    omega

theorem parseRest_flatMap (ds : Bytes) :
    ∀ k : Nat, parseRest (ds.flatMap (fun n => '-' :: List.replicate n 'x')) k = some (k :: ds) := by
  induction ds with
  | nil => intro k; rfl
  | cons d ds ih =>
    intro k
    rw [List.flatMap_cons, List.cons_append]
    show parseRest ('-' :: (List.replicate d 'x' ++ ds.flatMap _)) k = _
    simp only [parseRest, if_neg (by decide : ¬ ('-' : Char) = 'x'), if_pos rfl]
    rw [parseRest_replicate, Nat.zero_add, ih d]
    rfl

theorem str_to_addr_addr_to_str (a : Addr) : str_to_addr (addr_to_str a) = some a := by
  rcases a with ⟨ds⟩
  cases ds with
  | nil => rfl
  | cons d ds =>
    show str_to_addr ⟨('-' :: List.replicate d 'x') ++ ds.flatMap _⟩ = _
    rw [List.cons_append]
    simp only [str_to_addr, if_pos rfl]
    rw [parseRest_replicate, Nat.zero_add, parseRest_flatMap ds d]
    rfl

/-! ### DataMap serialization (spec §4.2: the DataMap is itself stored as a
content-addressed blob).  Length-prefixed byte encoding, exactly invertible. -/

/-- Length-prefixed byte-string block. -/
def serBytes (b : Bytes) : Bytes := b.length :: b

/-- Read `n` bytes off the front of `l`. -/
def readN (n : Nat) (l : Bytes) : Option (Bytes × Bytes) :=
  if n ≤ l.length then some (l.take n, l.drop n) else none

theorem readN_append (l r : Bytes) : readN l.length (l ++ r) = some (l, r) := by
  unfold readN
  rw [if_pos (by simp)]
  rw [List.take_left, List.drop_left]

/-- Serialize one DataMap entry. -/
def serEntry (e : DMEntry) : Bytes :=
  serBytes e.ctAddr.digest ++ serBytes e.srcHash

/-- Modelled from the spec: deterministic serialization of a DataMap. -/
def serializeDM (dm : DataMap) : Bytes :=
  dm.entries.length :: dm.entries.flatMap serEntry

/-- Parse `n` serialized DataMap entries off the front of the input. -/
def parseEntries : Nat → Bytes → Option (List DMEntry × Bytes)
  | 0, l => some ([], l)
  | n + 1, l =>
    match l with
    | [] => none
    | la :: rest =>
      match readN la rest with
      | none => none
      | some (dig, r₁) =>
        match r₁ with
        | [] => none
        | lh :: r₂ =>
          match readN lh r₂ with
          | none => none
          | some (h, r₃) =>
            match parseEntries n r₃ with
            | none => none
            | some (es, r₄) => some (⟨⟨dig⟩, h⟩ :: es, r₄)

/-- Modelled from the spec: deserialization of a DataMap, rejecting malformed
bytes; exact inverse of `serializeDM`. -/
def deserializeDM (b : Bytes) : Option DataMap :=
  match b with
  | [] => none
  | n :: rest =>
    match parseEntries n rest with
    | some (es, []) => some ⟨es⟩
    | _ => none

theorem parseEntries_flatMap (es : List DMEntry) :
    ∀ r : Bytes, parseEntries es.length (es.flatMap serEntry ++ r) = some (es, r) := by
  induction es with
  | nil => intro r; simp [parseEntries]
  | cons e es ih =>
    intro r
    rw [List.flatMap_cons, List.append_assoc]
    have hse : serEntry e
        = e.ctAddr.digest.length :: (e.ctAddr.digest ++ (e.srcHash.length :: e.srcHash)) := by
      simp [serEntry, serBytes]
    rw [hse, List.cons_append, List.append_assoc]
    simp only [parseEntries, List.cons_append, readN_append, ih]

theorem deserializeDM_serializeDM (dm : DataMap) :
    deserializeDM (serializeDM dm) = some dm := by
  rcases dm with ⟨es⟩
  show deserializeDM (es.length :: es.flatMap serEntry) = _
  have h : (es.flatMap serEntry : Bytes) = es.flatMap serEntry ++ [] := by simp
  rw [h]
  simp only [deserializeDM, parseEntries_flatMap]

/-! ### Network / ledger / vault state and the client operations

The binding layer (`src/autonomi/src/client/wasm.rs`) marshals plain byte
vectors and strings and delegates to the inner client; the inner client's
network effects are modelled as explicit state passing over `World`. -/

/-- The wallet handle (spec §3: an opaque signer/payer capability; the core
never inspects or mutates ledger state through it). -/
structure Wallet where
  walletId : Nat
  deriving DecidableEq, Repr

/-- Modelled from the spec: the observable state the client operations touch —
the network's content-addressed chunk store, the payment ledger (a log of
`(address, price)` payment events), the per-key vault store (newest entry
first, keyed by derived vault address), and a count of network fetches
performed. -/
structure World where
  store : List Bytes
  ledger : List (Addr × Nat)
  vaults : List (Bytes × Bytes)
  fetchCount : Nat
  deriving DecidableEq, Repr

/-- Fetch the blob stored at a content address, if any. -/
def fetchNet (w : World) (a : Addr) : Option Bytes :=
  w.store.find? (fun b => address b == a)

/-- Whether some blob with this content address is already stored. -/
def blobPresent (w : World) (a : Addr) : Bool :=
  w.store.any (fun b => address b == a)

/-- Modelled from the spec (CostQuoter §4.3): the selected (lowest,
deterministic) quote price for storing a chunk at an address, abstracted as a
pure function of the address. -/
def quotePrice (a : Addr) : Nat := a.digest.length + 1

/-- Modelled from the spec (§4.4): pay for and store one chunk; a chunk whose
address is already present on the network is skipped (idempotent, no double
charge). -/
def putBlobPaid (wal : Wallet) (w : World) (b : Bytes) : World :=
  if blobPresent w (address b) then w
  else { w with
          store := b :: w.store
          ledger := (address b, quotePrice (address b)) :: w.ledger }

/-- Store a sequence of chunks in order. -/
def putAll (wal : Wallet) (w : World) (bs : List Bytes) : World :=
  bs.foldl (putBlobPaid wal) w

/-- Record `n` network fetches. -/
def bumpFetch (w : World) (n : Nat) : World :=
  { w with fetchCount := w.fetchCount + n }

/-- Chunk-size bound of the encoder (spec §3: implementation-defined, e.g.
1 MiB). -/
def maxChunkSize : Nat := 1048576

/-- `JsClient::data_put` (wasm.rs:50-56) composed with the modelled inner
`Client::data_put` (spec §4.2/§4.4): encode the payload, pay for and store
every ciphertext chunk and the serialized DataMap, and return the textual
address of the DataMap blob. -/
def data_put (data : Bytes) (wallet : Wallet) (w : World) : String × World :=
  let pair := encode maxChunkSize data
  let root := serializeDM pair.1
  (addr_to_str (address root), putAll wallet w (pair.2 ++ [root]))

/-- `JsClient::data_get` (wasm.rs:58-64) composed with the modelled inner
`Client::data_get` (spec §4.2/§4.4): parse the address string (a malformed
string is rejected before any network interaction), fetch the DataMap blob
with integrity verification, deserialize it and decode the payload. -/
def data_get (addr : String) (w : World) : Except Err Bytes × World :=
  match str_to_addr addr with
  | none => (.error .invalidInput, w)
  | some a =>
    match fetchVerified (fetchNet w) a with
    | .error e => (.error e, bumpFetch w 1)
    | .ok rootBytes =>
      match deserializeDM rootBytes with
      | none => (.error .invalidInput, bumpFetch w 1)
      | some dm => (decode dm (fetchNet w), bumpFetch w (1 + dm.entries.length))

/-- `JsClient::chunk_get` (wasm.rs:42-48) composed with the modelled inner
`Client::chunk_get`: parse the address string, fetch the chunk with integrity
verification and return its bytes. -/
def chunk_get (addr : String) (w : World) : Except Err Bytes × World :=
  match str_to_addr addr with
  | none => (.error .invalidInput, w)
  | some a => (fetchVerified (fetchNet w) a, bumpFetch w 1)

/-- Outcome of a binding call that may panic instead of returning. -/
inductive JsOutcome (α : Type) where
  | ok (val : α)
  | err (e : Err)
  | panic
  deriving DecidableEq, Repr

/-- `JsClient::chunk_put` (wasm.rs:37-40): the body is
`async { unimplemented!() }.await`, which panics unconditionally for every
input; it never produces a value and never produces a typed error. -/
def chunk_put (_data : Bytes) (_wallet : Wallet) : JsOutcome String :=
  .panic

/-- `JsClient::data_cost` (wasm.rs:66-72) composed with the modelled inner
`Client::data_cost` (spec §4.3): run the encoder virtually, deduplicate the
resulting chunk addresses, and sum the selected quote price over every chunk
not already present on the network.  A pure estimate: the world (store,
ledger, vaults) is returned unchanged and no wallet is involved. -/
def data_cost (data : Bytes) (w : World) : Nat × World :=
  let pair := encode maxChunkSize data
  let addrs := ((pair.2 ++ [serializeDM pair.1]).map address).dedup
  (addrs.foldl (fun acc a => acc + (if blobPresent w a then 0 else quotePrice a)) 0, w)

/-! ### Store membership and the data round-trip -/

theorem mem_store_putBlobPaid (wal : Wallet) (w : World) (b c : Bytes)
    (h : c ∈ w.store) : c ∈ (putBlobPaid wal w b).store := by
  unfold putBlobPaid
  by_cases hp : blobPresent w (address b)
  · simpa [hp] using h
  · simp only [hp, if_false]
    exact List.mem_cons_of_mem _ h

theorem self_mem_store_putBlobPaid (wal : Wallet) (w : World) (b : Bytes) :
    b ∈ (putBlobPaid wal w b).store := by
  unfold putBlobPaid
  by_cases hp : blobPresent w (address b)
  · simp only [hp, if_true]
    unfold blobPresent at hp
    obtain ⟨c, hc, hcb⟩ := List.any_eq_true.mp hp
    have : c = b := address_inj (by simpa using hcb)
    subst this
    exact hc
  · simp only [hp, if_false]
    exact List.mem_cons_self _ _

theorem mem_store_putAll (wal : Wallet) :
    ∀ (bs : List Bytes) (w : World) (c : Bytes),
      (c ∈ w.store ∨ c ∈ bs) → c ∈ (putAll wal w bs).store := by
  intro bs
  induction bs with
  | nil =>
    intro w c h
    rcases h with h | h
    · exact h
    · simp at h
  | cons b bs ih =>
    intro w c h
    show c ∈ (putAll wal (putBlobPaid wal w b) bs).store
    rcases h with h | h
    · exact ih (putBlobPaid wal w b) c (Or.inl (mem_store_putBlobPaid wal w b c h))
    · rcases List.mem_cons.mp h with rfl | h
      · exact ih (putBlobPaid wal w c) c (Or.inl (self_mem_store_putBlobPaid wal w c))
      · exact ih (putBlobPaid wal w b) c (Or.inr h)

theorem fetchNet_of_mem (w : World) (b : Bytes) (h : b ∈ w.store) :
    fetchNet w (address b) = some b := by
  unfold fetchNet
  have hsome : (w.store.find? (fun c => address c == address b)).isSome := by
    rw [List.find?_isSome]
    exact ⟨b, h, by simp⟩
  obtain ⟨c, hc⟩ := Option.isSome_iff_exists.mp hsome
  have hcb : address c = address b := by
    have := List.find?_some hc
    simpa using this
  rw [hc, address_inj hcb]

theorem fetchVerified_of_mem (w : World) (b : Bytes) (h : b ∈ w.store) :
    fetchVerified (fetchNet w) (address b) = .ok b := by
  unfold fetchVerified
  rw [fetchNet_of_mem w b h]
  simp

theorem length_encHashes (maxSize : Nat) (p : Bytes) :
    (encHashes maxSize p).length = (encPieces maxSize p).length := by
  simp [encHashes]

theorem length_encCts (maxSize : Nat) (p : Bytes) :
    (encCts maxSize p).length = (encPieces maxSize p).length := by
  simp [encCts]

theorem length_encEntries (maxSize : Nat) (p : Bytes) :
    (encEntries maxSize p).length = (encPieces maxSize p).length := by
  simp [encEntries]

theorem encEntries_map_srcHash (maxSize : Nat) (p : Bytes) :
    (encEntries maxSize p).map DMEntry.srcHash = encHashes maxSize p := by
  unfold encEntries
  rw [List.map_map]
  show (List.range (encPieces maxSize p).length).map
    (fun i => (encHashes maxSize p).getD i []) = _
  rw [← length_encHashes maxSize p]
  exact map_getD_self _ []

theorem encEntries_getD (maxSize : Nat) (p : Bytes) (i : Nat)
    (hi : i < (encPieces maxSize p).length) :
    (encEntries maxSize p).getD i default
      = DMEntry.mk (address ((encCts maxSize p).getD i []))
          ((encHashes maxSize p).getD i []) := by
  unfold encEntries
  exact getD_map_range _ _ _ _ hi

theorem encCts_getD (maxSize : Nat) (p : Bytes) (i : Nat)
    (hi : i < (encPieces maxSize p).length) :
    (encCts maxSize p).getD i []
      = encryptBytes (siblingKey (encHashes maxSize p) i)
          ((encPieces maxSize p).getD i []) := by
  unfold encCts
  exact getD_map_range _ _ _ _ hi

theorem decodeEntry_encode (maxSize : Nat) (p : Bytes) (w : World)
    (hmem : ∀ c ∈ encCts maxSize p, c ∈ w.store)
    (i : Nat) (hi : i < (encPieces maxSize p).length) :
    decodeEntry (encEntries maxSize p) (fetchNet w) i
      = .ok ((encPieces maxSize p).getD i []) := by
  have hctmem : (encCts maxSize p).getD i [] ∈ encCts maxSize p := by
    have hi' : i < (encCts maxSize p).length := by rw [length_encCts]; exact hi
    rw [List.getD_eq_getElem _ _ hi']
    exact List.getElem_mem hi'
  unfold decodeEntry
  rw [encEntries_getD maxSize p i hi]
  show (match fetchVerified (fetchNet w) (address ((encCts maxSize p).getD i [])) with
    | .error e => Except.error e
    | .ok ct =>
        Except.ok (decryptBytes (siblingKey ((encEntries maxSize p).map DMEntry.srcHash) i) ct))
      = _
  rw [fetchVerified_of_mem w _ (hmem _ hctmem)]
  show Except.ok (decryptBytes (siblingKey ((encEntries maxSize p).map DMEntry.srcHash) i)
    ((encCts maxSize p).getD i [])) = _
  rw [encEntries_map_srcHash, encCts_getD maxSize p i hi, decrypt_encrypt]

theorem decode_encode (maxSize : Nat) (p : Bytes) (w : World)
    (hmem : ∀ c ∈ encCts maxSize p, c ∈ w.store) :
    decode (DataMap.mk (encEntries maxSize p)) (fetchNet w) = .ok p := by
  unfold decode
  show (match collectE ((List.range (encEntries maxSize p).length).map
      (decodeEntry (encEntries maxSize p) (fetchNet w))) with
    | .error e => Except.error e
    | .ok pieces => Except.ok pieces.flatten) = _
  rw [length_encEntries]
  rw [collectE_map_ok (List.range (encPieces maxSize p).length)
    (decodeEntry (encEntries maxSize p) (fetchNet w))
    (fun i => (encPieces maxSize p).getD i [])
    (fun i hi => decodeEntry_encode maxSize p w hmem i (List.mem_range.mp hi))]
  show Except.ok ((List.range (encPieces maxSize p).length).map
    (fun i => (encPieces maxSize p).getD i [])).flatten = _
  rw [map_getD_self]
  unfold encPieces
  rw [splitPieces_flatten]

theorem data_get_data_put (p : Bytes) (wal : Wallet) (w : World) :
    (data_get (data_put p wal w).1 (data_put p wal w).2).1 = .ok p := by
  have hput1 : (data_put p wal w).1
      = addr_to_str (address (serializeDM ⟨encEntries maxChunkSize p⟩)) := rfl
  have hput2 : (data_put p wal w).2
      = putAll wal w (encCts maxChunkSize p ++ [serializeDM ⟨encEntries maxChunkSize p⟩]) := rfl
  have hrootmem : serializeDM (⟨encEntries maxChunkSize p⟩ : DataMap)
      ∈ (data_put p wal w).2.store := by
    rw [hput2]
    exact mem_store_putAll wal _ w _ (Or.inr (by simp))
  have hctmem : ∀ c ∈ encCts maxChunkSize p, c ∈ (data_put p wal w).2.store := by
    intro c hc
    rw [hput2]
    exact mem_store_putAll wal _ w c (Or.inr (by simp [hc]))
  rw [hput1]
  simp only [data_get, str_to_addr_addr_to_str,
    fetchVerified_of_mem (data_put p wal w).2 _ hrootmem,
    deserializeDM_serializeDM,
    decode_encode maxChunkSize p (data_put p wal w).2 hctmem]

/-! ### Vault operations (spec §4.6; binding wasm.rs:115-152) -/

/-- A BLS secret key handle: the binding converts a 32-byte vector into it. -/
structure SecretKey where
  skBytes : Bytes
  deriving DecidableEq, Repr

/-- Modelled from the spec: `SecretKey::from_bytes` accepts exactly 32 bytes of
key material (the binding has already enforced the length via the `[u8; 32]`
conversion before calling it). -/
def secretKeyFromBytes (b : Bytes) : Option SecretKey :=
  if b.length = 32 then some ⟨b⟩ else none

/-- Modelled from the spec: the public key of a key pair, a deterministic
(injective) function of the secret key. -/
def publicKeyOf (sk : SecretKey) : Bytes := sk.skBytes

/-- Modelled from the spec (§4.6): `derive_address(public_key)` — the vault's
network location, a deterministic function of the public key alone. -/
def derive_address (pk : Bytes) : Bytes := 0 :: pk

/-- The derived vault address for raw 32-byte key material. -/
def vaultAddrOfBytes (sk : Bytes) : Bytes := derive_address (publicKeyOf ⟨sk⟩)

/-- Modelled from the spec (§4.6): `put_vault` encrypts the payload under the
secret key and overwrites whatever is stored at the derived address
(last-writer-wins, newest entry first). -/
def put_vault (sk : SecretKey) (payload : Bytes) (w : World) : Except Err Unit × World :=
  (.ok (), { w with
    vaults := (derive_address (publicKeyOf sk), encryptBytes sk.skBytes payload) :: w.vaults })

/-- Modelled from the spec (§4.6): `get_vault` fetches the record at the
derived address (the newest write) and decrypts it; `NotFoundError` if nothing
has ever been written there. -/
def get_vault (sk : SecretKey) (w : World) : Except Err Bytes × World :=
  match w.vaults.find? (fun e => e.1 == derive_address (publicKeyOf sk)) with
  | none => (.error .notFound, bumpFetch w 1)
  | some e => (.ok (decryptBytes sk.skBytes e.2), bumpFetch w 1)

/-- `JsClient::get_user_data_from_vault` (wasm.rs:122-133): convert the secret
key bytes through the `[u8; 32]` length conversion (failing on any other
length before any vault access), build the key, and read the vault.  The user
data payload is the opaque byte blob of the vault record. -/
def get_user_data_from_vault (secret_key : Bytes) (w : World) : Except Err Bytes × World :=
  if secret_key.length = 32 then
    match secretKeyFromBytes secret_key with
    | none => (.error .invalidInput, w)
    | some sk => get_vault sk w
  else (.error .invalidInput, w)

/-- `JsClient::put_user_data_to_vault` (wasm.rs:135-150): same length-checked
key conversion, then write the user data to the vault (argument order as in
the source: user data, wallet, secret key). -/
def put_user_data_to_vault (user_data : Bytes) (_wallet : Wallet) (secret_key : Bytes)
    (w : World) : Except Err Unit × World :=
  if secret_key.length = 32 then
    match secretKeyFromBytes secret_key with
    | none => (.error .invalidInput, w)
    | some sk => put_vault sk user_data w
  else (.error .invalidInput, w)

/-! ### Archives (spec §3, §4.5; binding wasm.rs:75-113) -/

/-- File metadata carried by an archive entry (spec §3: size, modification
time, permission bits). -/
structure Metadata where
  size : Nat
  mtime : Nat
  perms : Nat
  deriving DecidableEq, Repr

/-- One archive entry: a relative file path (modelled as its byte string)
mapped to a content address and metadata. -/
structure AEntry where
  path : Bytes
  faddr : Addr
  meta : Metadata
  deriving DecidableEq, Repr

/-- Strict lexicographic order on paths. -/
def pathLt : Bytes → Bytes → Bool
  | [], [] => false
  | [], _ :: _ => true
  | _ :: _, [] => false
  | a :: as, b :: bs => if a < b then true else if b < a then false else pathLt as bs

/-- Modelled from the spec (§3): an `Archive` is a mapping from relative file
path to `(ContentAddress, Metadata)`, kept ordered by path string with unique
keys. -/
structure Archive where
  entries : List AEntry
  deriving DecidableEq, Repr

/-- `Archive::add_file` as used by the binding (wasm.rs:105): insert an entry
at its ordered position, replacing an entry with an equal path. -/
def add_file (path : Bytes) (a : Addr) (m : Metadata) : List AEntry → List AEntry
  | [] => [⟨path, a, m⟩]
  | e :: es =>
    if pathLt path e.path then ⟨path, a, m⟩ :: e :: es
    else if path = e.path then ⟨path, a, m⟩ :: es
    else e :: add_file path a m es

/-- The entry list is strictly sorted by path (so keys are unique): the
well-formedness invariant of an archive viewed as a map. -/
def sortedUniq : List AEntry → Bool
  | [] => true
  | [_] => true
  | a :: b :: rest => pathLt a.path b.path && sortedUniq (b :: rest)

/-- Serialize one archive entry (length-prefixed path and digest, then the
three metadata fields). -/
def serAEntry (e : AEntry) : Bytes :=
  serBytes e.path ++ serBytes e.faddr.digest ++ [e.meta.size, e.meta.mtime, e.meta.perms]

/-- Modelled from the spec (§4.5): deterministic serialization of an archive. -/
def serializeArchive (ar : Archive) : Bytes :=
  ar.entries.length :: ar.entries.flatMap serAEntry

/-- Parse `n` serialized archive entries off the front of the input. -/
def parseAEntries : Nat → Bytes → Option (List AEntry × Bytes)
  | 0, l => some ([], l)
  | n + 1, l =>
    match l with
    | [] => none
    | lp :: rest =>
      match readN lp rest with
      | none => none
      | some (path, r₁) =>
        match r₁ with
        | [] => none
        | ld :: r₂ =>
          match readN ld r₂ with
          | none => none
          | some (dig, r₃) =>
            match r₃ with
            | sz :: mt :: pe :: r₄ =>
              match parseAEntries n r₄ with
              | none => none
              | some (es, r₅) => some (⟨path, ⟨dig⟩, ⟨sz, mt, pe⟩⟩ :: es, r₅)
            | _ => none

/-- Modelled from the spec (§4.5): deserialization of an archive, the exact
inverse of `serializeArchive`, rejecting malformed bytes. -/
def deserializeArchive (b : Bytes) : Option Archive :=
  match b with
  | [] => none
  | n :: rest =>
    match parseAEntries n rest with
    | some (es, []) => some ⟨es⟩
    | _ => none

theorem parseAEntries_flatMap (es : List AEntry) :
    ∀ r : Bytes, parseAEntries es.length (es.flatMap serAEntry ++ r) = some (es, r) := by
  induction es with
  | nil => intro r; simp [parseAEntries]
  | cons e es ih =>
    intro r
    rw [List.flatMap_cons, List.append_assoc]
    have hse : serAEntry e
        = e.path.length :: (e.path ++ (e.faddr.digest.length ::
            (e.faddr.digest ++ [e.meta.size, e.meta.mtime, e.meta.perms]))) := by
      simp [serAEntry, serBytes]
    rw [hse, List.cons_append, List.append_assoc]
    simp only [parseAEntries, List.cons_append, List.append_assoc, List.nil_append,
      readN_append, ih]

theorem deserializeArchive_serializeArchive (ar : Archive) :
    deserializeArchive (serializeArchive ar) = some ar := by
  rcases ar with ⟨es⟩
  show deserializeArchive (es.length :: es.flatMap serAEntry) = _
  have h : (es.flatMap serAEntry : Bytes) = es.flatMap serAEntry ++ [] := by simp
  rw [h]
  simp only [deserializeArchive, parseAEntries_flatMap]

/-- `JsClient::archive_put` (wasm.rs:94-111): build an `Archive` from the
input map by repeated `add_file`, then write its serialization through the
data pipeline and return the textual address. -/
def archive_put (m : List AEntry) (wallet : Wallet) (w : World) : String × World :=
  data_put (serializeArchive ⟨m.foldr (fun e acc => add_file e.path e.faddr e.meta acc) []⟩)
    wallet w

/-- `JsClient::archive_get` (wasm.rs:84-92): fetch the archive bytes through
the data pipeline and deserialize them into the path map. -/
def archive_get (addr : String) (w : World) : Except Err (List AEntry) × World :=
  let r := data_get addr w
  match r.1 with
  | .error e => (.error e, r.2)
  | .ok bytes =>
    match deserializeArchive bytes with
    | none => (.error .invalidInput, r.2)
    | some ar => (.ok ar.entries, r.2)

theorem sortedUniq_tail {e : AEntry} {es : List AEntry}
    (h : sortedUniq (e :: es) = true) : sortedUniq es = true := by
  cases es with
  | nil => rfl
  | cons f fs => simpa [sortedUniq, Bool.and_eq_true] using (And.right (by
      simpa [sortedUniq, Bool.and_eq_true] using h))

theorem add_file_sorted (e : AEntry) (es : List AEntry)
    (h : sortedUniq (e :: es) = true) :
    add_file e.path e.faddr e.meta es = e :: es := by
  cases es with
  | nil => rfl
  | cons f fs =>
    have hlt : pathLt e.path f.path = true := by
      simpa [sortedUniq, Bool.and_eq_true] using (And.left (by
        simpa [sortedUniq, Bool.and_eq_true] using h))
    simp [add_file, hlt]

theorem buildArchive_sorted :
    ∀ m : List AEntry, sortedUniq m = true →
      m.foldr (fun e acc => add_file e.path e.faddr e.meta acc) [] = m := by
  intro m
  induction m with
  | nil => intro _; rfl
  | cons e es ih =>
    intro h
    rw [List.foldr_cons, ih (sortedUniq_tail h)]
    exact add_file_sorted e es h

/-! ### The binding-layer type surface (wasm.rs signatures) -/

/-- The kinds of values crossing the wasm binding boundary in wasm.rs:
`Vec<u8>`, `String`, `()`, the `JsWallet` capability handle, the opaque
`JsUserData` handle, the `AttoTokens` wrapper, a raw `JsValue` and a
`js_sys::Map`. -/
inductive BTy where
  | bytes
  | str
  | unit
  | handleWallet
  | handleUserData
  | handleAttoTokens
  | jsValue
  | jsMap
  deriving DecidableEq, Repr

/-- The public `JsClient` data operations of the binding layer. -/
inductive OpName where
  | chunkPut
  | chunkGet
  | dataPut
  | dataGet
  | dataCost
  | archiveGet
  | archivePut
  | getUserDataFromVault
  | putUserDataToVault
  deriving DecidableEq, Repr

/-- Argument and success-result types of a binding operation. -/
structure OpSig where
  args : List BTy
  ret : BTy
  deriving DecidableEq, Repr

/-- The boundary signature of each `JsClient` operation, read off wasm.rs:
`chunk_put` (line 38), `chunk_get` (43), `data_put` (51), `data_get` (59),
`data_cost` (67), `archive_get` (85), `archive_put` (95-99),
`get_user_data_from_vault` (123-126), `put_user_data_to_vault` (136-141). -/
def bindingSig : OpName → OpSig
  | .chunkPut => ⟨[.bytes, .handleWallet], .str⟩
  | .chunkGet => ⟨[.str], .bytes⟩
  | .dataPut => ⟨[.bytes, .handleWallet], .str⟩
  | .dataGet => ⟨[.str], .bytes⟩
  | .dataCost => ⟨[.bytes], .handleAttoTokens⟩
  | .archiveGet => ⟨[.str], .jsMap⟩
  | .archivePut => ⟨[.jsValue, .handleWallet], .str⟩
  | .getUserDataFromVault => ⟨[.bytes], .handleUserData⟩
  | .putUserDataToVault => ⟨[.handleUserData, .handleWallet, .bytes], .unit⟩

/-- Plain boundary types in the sense of the spec (§6): byte sequences,
strings and unit; the wallet capability handle appears in the spec's own
boundary signatures and is therefore admitted as plain. -/
def plainTy : BTy → Bool
  | .bytes => true
  | .str => true
  | .unit => true
  | .handleWallet => true
  | _ => false

/-- An operation has a plain boundary when every argument and the result are
plain. -/
def opPlain (s : OpSig) : Bool := s.args.all plainTy && plainTy s.ret

/-- All public data operations of the binding layer. -/
def allOps : List OpName :=
  [.chunkPut, .chunkGet, .dataPut, .dataGet, .dataCost,
   .archiveGet, .archivePut, .getUserDataFromVault, .putUserDataToVault]

/-! ### Shared helper lemmas for the claims -/

theorem fetchVerified_ok_addr (fetch : Addr → Option Bytes) (a : Addr) (b : Bytes)
    (h : fetchVerified fetch a = .ok b) : address b = a ∧ fetch a = some b := by
  unfold fetchVerified at h
  split at h
  · exact absurd h (by simp)
  · rename_i c hfa
    split at h
    · rename_i hca
      injection h with h
      subst h
      exact ⟨hca, hfa⟩
    · exact absurd h (by simp)

theorem fetchVerified_corrupt (fetch : Addr → Option Bytes) (a : Addr) (b : Bytes)
    (hf : fetch a = some b) (hne : address b ≠ a) :
    fetchVerified fetch a = .error .corruption := by
  unfold fetchVerified
  rw [hf]
  show (if address b = a then Except.ok b else Except.error Err.corruption) = _
  rw [if_neg hne]

/-! ### The claims -/

/-- C1: Data round-trip — for every byte payload `p` (including the empty
payload, a payload exactly at the chunk-size boundary, and payloads spanning
many chunks), every wallet and every prior network state, `data_put p wallet`
followed by `data_get` on the returned address string yields exactly `p`. -/
theorem c1_data_roundtrip (p : Bytes) (wallet : Wallet) (w : World) :
    (data_get (data_put p wallet w).1 (data_put p wallet w).2).1 = .ok p :=
  data_get_data_put p wallet w

/-- C2: Fetch integrity — every chunk fetch recomputes the content address of
the fetched bytes and compares it to the requested address: when the stored
bytes do not hash to the requested address the fetch fails with
`CorruptionError`; whenever a verified fetch returns bytes their address
equals the requested one; and bytes returned by `chunk_get` always match the
parsed requested address, so mismatching bytes are never returned. -/
theorem c2_fetch_integrity (fetch : Addr → Option Bytes) (a : Addr) (b : Bytes) :
    (fetch a = some b → address b ≠ a → fetchVerified fetch a = .error .corruption)
    ∧ (fetchVerified fetch a = .ok b → address b = a)
    ∧ (∀ (s : String) (w : World), (chunk_get s w).1 = .ok b →
        ∃ a', str_to_addr s = some a' ∧ address b = a') := by
  refine ⟨fun hf hne => fetchVerified_corrupt fetch a b hf hne,
    fun h => (fetchVerified_ok_addr fetch a b h).1, ?_⟩
  intro s w hok
  unfold chunk_get at hok
  cases hsa : str_to_addr s with
  | none =>
    rw [hsa] at hok
    exact absurd hok (by simp)
  | some a' =>
    rw [hsa] at hok
    exact ⟨a', rfl, (fetchVerified_ok_addr (fetchNet w) a' b hok).1⟩

/-- Witness for C2: a store answering with bytes whose recomputed address
differs from the requested address makes the verified fetch fail with
`CorruptionError`. -/
theorem c2_witness :
    fetchVerified (fun _ => some [0]) (address [1]) = .error .corruption :=
  (c2_fetch_integrity (fun _ => some [0]) (address [1]) [0]).1 rfl (by decide)

/-- C3 (counterexample): the claim that every public Client operation of the
binding layer takes and returns only plain byte sequences and strings — in
particular that `vault_get` returns plain bytes, `vault_put` takes a plain
bytes payload, and `data_cost` returns a price string — is false on the
signatures of wasm.rs: `data_cost` returns an `AttoTokens` handle and the
vault operations exchange the opaque `JsUserData` handle. -/
theorem c3_counterexample :
    opPlain (bindingSig .dataCost) = false
    ∧ (bindingSig .dataCost).ret = .handleAttoTokens
    ∧ opPlain (bindingSig .getUserDataFromVault) = false
    ∧ (bindingSig .getUserDataFromVault).ret = .handleUserData
    ∧ (bindingSig .putUserDataToVault).args = [.handleUserData, .handleWallet, .bytes] := by
  decide

/-- C3 (amended): exactly the chunk and data put/get operations have plain
boundaries (byte sequences, strings, unit, the wallet capability handle);
`data_cost` returns an `AttoTokens` handle convertible to a price string, the
archive operations use JS map values, and the vault operations exchange the
opaque `JsUserData` handle, with `put_user_data_to_vault` returning unit and
taking plain secret-key bytes. -/
theorem c3_plain_boundary :
    allOps.filter (fun op => opPlain (bindingSig op))
      = [.chunkPut, .chunkGet, .dataPut, .dataGet]
    ∧ (bindingSig .dataCost).args = [.bytes]
    ∧ (bindingSig .dataCost).ret = .handleAttoTokens
    ∧ (bindingSig .archiveGet).ret = .jsMap
    ∧ (bindingSig .archivePut).args = [.jsValue, .handleWallet]
    ∧ (bindingSig .getUserDataFromVault).args = [.bytes]
    ∧ (bindingSig .getUserDataFromVault).ret = .handleUserData
    ∧ (bindingSig .putUserDataToVault).args = [.handleUserData, .handleWallet, .bytes]
    ∧ (bindingSig .putUserDataToVault).ret = .unit := by
  decide

/-- C4: Cost estimation is effect-free — `data_cost` returns a price and
leaves the whole world (chunk store, payment ledger, vaults, fetch count)
unchanged; the binding signature takes no wallet at all, so no payment can
occur. -/
theorem c4_cost_effect_free (p : Bytes) (w : World) :
    (data_cost p w).2 = w ∧ (data_cost p w).2.ledger = w.ledger :=
  ⟨rfl, rfl⟩

/-- C5: Vault last-write-wins — with a 32-byte secret key, writing payload `A`
then payload `B` through the vault binding and reading back yields `B`; and
reading a vault whose derived address has never been written fails with
`NotFoundError`. -/
theorem c5_vault_lww (sk A B : Bytes) (wal₁ wal₂ : Wallet) (w : World)
    (h32 : sk.length = 32)
    (hfresh : vaultAddrOfBytes sk ∉ w.vaults.map Prod.fst) :
    (get_user_data_from_vault sk
        (put_user_data_to_vault B wal₂ sk
          (put_user_data_to_vault A wal₁ sk w).2).2).1 = .ok B
    ∧ (get_user_data_from_vault sk w).1 = .error .notFound := by
  have hsk : secretKeyFromBytes sk = some ⟨sk⟩ := by
    simp [secretKeyFromBytes, h32]
  constructor
  · simp only [put_user_data_to_vault, get_user_data_from_vault, h32,
      eq_self_iff_true, if_true, hsk]
    show (get_vault ⟨sk⟩ (put_vault ⟨sk⟩ B (put_vault ⟨sk⟩ A w).2).2).1 = _
    simp only [put_vault, get_vault]
    rw [List.find?_cons_of_pos _ (by simp)]
    simp [decrypt_encrypt]
  · simp only [get_user_data_from_vault, h32, eq_self_iff_true, if_true, hsk]
    show (get_vault ⟨sk⟩ w).1 = _
    have hnone : w.vaults.find? (fun e => e.1 == derive_address (publicKeyOf ⟨sk⟩)) = none := by
      rw [List.find?_eq_none]
      intro e he
      simp only [beq_iff_eq]
      intro hEq
      apply hfresh
      have hm : e.1 ∈ w.vaults.map Prod.fst := List.mem_map_of_mem Prod.fst he
      rwa [hEq] at hm
    simp only [get_vault, hnone]

/-- Witness for C5 at a concrete 32-byte key, fresh world and payloads. -/
theorem c5_witness :
    (List.replicate 32 0).length = 32
    ∧ vaultAddrOfBytes (List.replicate 32 0) ∉ (World.mk [] [] [] 0).vaults.map Prod.fst
    ∧ ((get_user_data_from_vault (List.replicate 32 0)
          (put_user_data_to_vault [2] ⟨1⟩ (List.replicate 32 0)
            (put_user_data_to_vault [1] ⟨0⟩ (List.replicate 32 0)
              (World.mk [] [] [] 0)).2).2).1 = .ok [2]
      ∧ (get_user_data_from_vault (List.replicate 32 0) (World.mk [] [] [] 0)).1
          = .error .notFound) :=
  ⟨by decide, by decide,
    c5_vault_lww (List.replicate 32 0) [1] [2] ⟨0⟩ ⟨1⟩ (World.mk [] [] [] 0)
      (by decide) (by decide)⟩

/-- C6: malformed address strings are rejected — when the address string does
not parse, `data_get`, `chunk_get` and `archive_get` fail with
`InvalidInputError` and return the world untouched (fetch count included), so
no network interaction happens on the error path. -/
theorem c6_malformed_addr (s : String) (w : World) (h : str_to_addr s = none) :
    data_get s w = (.error .invalidInput, w)
    ∧ chunk_get s w = (.error .invalidInput, w)
    ∧ archive_get s w = (.error .invalidInput, w) := by
  refine ⟨?_, ?_, ?_⟩
  · simp [data_get, h]
  · simp [chunk_get, h]
  · simp [archive_get, data_get, h]

/-- Witness for C6 at the concrete malformed string `"zz"` over a non-empty
store. -/
theorem c6_witness :
    str_to_addr "zz" = none
    ∧ (data_get "zz" (World.mk [[5]] [] [] 0)
        = (.error .invalidInput, World.mk [[5]] [] [] 0)
      ∧ chunk_get "zz" (World.mk [[5]] [] [] 0)
        = (.error .invalidInput, World.mk [[5]] [] [] 0)
      ∧ archive_get "zz" (World.mk [[5]] [] [] 0)
        = (.error .invalidInput, World.mk [[5]] [] [] 0)) :=
  ⟨by decide, c6_malformed_addr "zz" (World.mk [[5]] [] [] 0) (by decide)⟩

/-- C7: Archive round-trip — serializing and deserializing any archive yields
an equal archive (same path set, addresses and metadata), and at the binding
level `archive_get` on the address returned by `archive_put` yields the same
map for every well-formed map (entries strictly ordered by path, hence unique
keys — empty, single-file and deeply nested paths included); the path
ordering of the output is the stable archive order. -/
theorem c7_archive_roundtrip (m : List AEntry) (wallet : Wallet) (w : World)
    (ar : Archive) (h : sortedUniq m = true) :
    (archive_get (archive_put m wallet w).1 (archive_put m wallet w).2).1 = .ok m
    ∧ deserializeArchive (serializeArchive ar) = some ar := by
  constructor
  · have hfold : m.foldr (fun e acc => add_file e.path e.faddr e.meta acc) [] = m :=
      buildArchive_sorted m h
    simp only [archive_put, hfold, archive_get, data_get_data_put,
      deserializeArchive_serializeArchive]
  · exact deserializeArchive_serializeArchive ar

/-- Witness for C7 at a concrete two-file sorted map and a one-file archive. -/
theorem c7_witness :
    sortedUniq [AEntry.mk [1] ⟨[7]⟩ ⟨1, 2, 3⟩, AEntry.mk [2] ⟨[8]⟩ ⟨4, 5, 6⟩] = true
    ∧ ((archive_get
          (archive_put [AEntry.mk [1] ⟨[7]⟩ ⟨1, 2, 3⟩, AEntry.mk [2] ⟨[8]⟩ ⟨4, 5, 6⟩]
            ⟨0⟩ (World.mk [] [] [] 0)).1
          (archive_put [AEntry.mk [1] ⟨[7]⟩ ⟨1, 2, 3⟩, AEntry.mk [2] ⟨[8]⟩ ⟨4, 5, 6⟩]
            ⟨0⟩ (World.mk [] [] [] 0)).2).1
        = .ok [AEntry.mk [1] ⟨[7]⟩ ⟨1, 2, 3⟩, AEntry.mk [2] ⟨[8]⟩ ⟨4, 5, 6⟩]
      ∧ deserializeArchive (serializeArchive ⟨[AEntry.mk [1] ⟨[7]⟩ ⟨1, 2, 3⟩]⟩)
          = some ⟨[AEntry.mk [1] ⟨[7]⟩ ⟨1, 2, 3⟩]⟩) :=
  ⟨by decide,
    c7_archive_roundtrip [AEntry.mk [1] ⟨[7]⟩ ⟨1, 2, 3⟩, AEntry.mk [2] ⟨[8]⟩ ⟨4, 5, 6⟩]
      ⟨0⟩ (World.mk [] [] [] 0) ⟨[AEntry.mk [1] ⟨[7]⟩ ⟨1, 2, 3⟩]⟩ (by decide)⟩

/-- C8: Encoding determinism — the encoding pipeline is a pure function of
the payload: the address string returned by `data_put` is the same for equal
payloads regardless of the wallet used and of the prior network state, and it
is exactly the textual address of the serialized DataMap that `encode`
(content-derived keys, no randomness) produces for the payload. -/
theorem c8_determinism (p : Bytes) (wal₁ wal₂ : Wallet) (w₁ w₂ : World) :
    (data_put p wal₁ w₁).1 = (data_put p wal₂ w₂).1
    ∧ (data_put p wal₁ w₁).1
        = addr_to_str (address (serializeDM (encode maxChunkSize p).1)) :=
  ⟨rfl, rfl⟩

/-- C9: the `chunk_put` binding operation is unimplemented — for every data
input and wallet it reaches `unimplemented!()` and panics; it never returns
an address string and never returns a typed error. -/
theorem c9_chunk_put_unimplemented (d : Bytes) (wal : Wallet) :
    chunk_put d wal = .panic
    ∧ (∀ s : String, ¬ chunk_put d wal = .ok s)
    ∧ (∀ e : Err, ¬ chunk_put d wal = .err e) :=
  ⟨rfl, fun s h => by simp [chunk_put] at h, fun e h => by simp [chunk_put] at h⟩

/-- Witness for C9 at concrete inputs. -/
theorem c9_witness :
    chunk_put [] ⟨0⟩ = .panic ∧ ¬ chunk_put [] ⟨0⟩ = .ok "" :=
  ⟨(c9_chunk_put_unimplemented [] ⟨0⟩).1, (c9_chunk_put_unimplemented [] ⟨0⟩).2.1 ""⟩

/-- C10: the vault binding operations require an exactly 32-byte secret key —
for every secret-key byte vector of any other length, both operations fail
from the length conversion with the world (vaults included) unchanged, before
any vault access or network interaction. -/
theorem c10_vault_key_length (sk ud : Bytes) (wal : Wallet) (w : World)
    (h : ¬ sk.length = 32) :
    get_user_data_from_vault sk w = (.error .invalidInput, w)
    ∧ put_user_data_to_vault ud wal sk w = (.error .invalidInput, w) := by
  constructor
  · simp [get_user_data_from_vault, h]
  · simp [put_user_data_to_vault, h]

/-- Witness for C10 at a 3-byte key. -/
theorem c10_witness :
    ¬ ([1, 2, 3] : Bytes).length = 32
    ∧ (get_user_data_from_vault [1, 2, 3] (World.mk [] [] [] 0)
        = (.error .invalidInput, World.mk [] [] [] 0)
      ∧ put_user_data_to_vault [9] ⟨0⟩ [1, 2, 3] (World.mk [] [] [] 0)
        = (.error .invalidInput, World.mk [] [] [] 0)) :=
  ⟨by decide, c10_vault_key_length [1, 2, 3] [9] ⟨0⟩ (World.mk [] [] [] 0) (by decide)⟩

end Autonomi
